import Mathlib

/-!
Verification development for the Rutgers scheduler core
(`scheduler_core.py`, `scheduler_strategies.py`, `config.py`).

The Python domain model and the backtracking scheduling engine are shallowly
embedded as executable Lean definitions; minutes-from-midnight values are
modelled as `Int` (Python integers), Python `None`-able values as `Option`,
Python sets of course codes as lists used only through membership, and the
stable ascending `sorted(courses, key=len(sections))` as an insertion sort
that is proved stable, sorted and a permutation.  The theorems at the end of
the file settle the specified properties of the engine against this
embedding.
-/

namespace RS

/-- Uppercasing of a string, modelling the Python `str.upper()` calls of the
source (ASCII behaviour, which is all the source relies on). -/
def strUpper (s : String) : String :=
  String.mk (s.toList.map Char.toUpper)

/-- Prefix test on character lists, auxiliary to the substring test below. -/
def listStartsWith : List Char → List Char → Bool
  | [], _ => true
  | _ :: _, [] => false
  | a :: as, b :: bs => a = b && listStartsWith as bs

/-- Substring occurrence test on character lists. -/
def listContains (needle : List Char) : List Char → Bool
  | [] => needle.isEmpty
  | c :: cs => listStartsWith needle (c :: cs) || listContains needle cs

/-- Substring test `needle in hay`, modelling the Python `in` operator on
strings used by `_check_travel`. -/
def containsSub (hay needle : String) : Bool :=
  listContains needle.toList hay.toList

/-- Numeric value of a list of decimal digit characters. -/
def digitsVal : List Char → Nat
  | [] => 0
  | c :: cs => (c.toNat - 48) * (10 ^ cs.length) + digitsVal cs

/-- Model of Python `int(s)` on the strings fed to it by `_convert_to_minutes`:
an optional sign followed by a nonempty run of decimal digits parses, anything
else raises (modelled as `none`, which the caller turns into the defensive
result 0). -/
def pyInt? (s : String) : Option Int :=
  let cs := s.toList
  match cs with
  | [] => none
  | '-' :: rest =>
      if rest ≠ [] ∧ rest.all Char.isDigit then some (-(digitsVal rest : Int)) else none
  | '+' :: rest =>
      if rest ≠ [] ∧ rest.all Char.isDigit then some (digitsVal rest : Int) else none
  | _ => if cs.all Char.isDigit then some (digitsVal cs : Int) else none

/-- One raw meeting record as consumed by `Section._parse_times`
(`scheduler_core.py` lines 35-73); every field the code reads with
`mt.get(...)` is an `Option`. -/
structure MeetingTime where
  meetingDay : Option String
  startTime : Option String
  endTime : Option String
  pmCode : Option String
  campusName : Option String
  campusLocation : Option String
  roomNumber : Option String
  room : Option String
  buildingCode : Option String
  building : Option String
deriving DecidableEq

/-- The `TimeSlot` value object of `scheduler_core.py` lines 6-22. -/
structure TimeSlot where
  day : String
  start_time : Int
  end_time : Int
  raw_time_str : String
  campus : String
  room : String
deriving DecidableEq

/-- `TimeSlot.overlaps` (`scheduler_core.py` lines 16-19). -/
def TimeSlot.overlaps (a b : TimeSlot) : Bool :=
  if a.day ≠ b.day then false
  else decide (max a.start_time b.start_time < min a.end_time b.end_time)

/-- `Section._convert_to_minutes` (`scheduler_core.py` lines 75-100): strip
colons, parse the first two characters as hours and the rest as minutes, add
12 hours for a PM code when the hour is not 12, and return 0 on any parse
failure (the bare `except` clause). -/
def convert_to_minutes (time_str : String) (pm_code : Option String) (is_start : Bool) : Int :=
  let t := time_str.toList.filter fun c => c ≠ ':'
  match pyInt? (String.mk (t.take 2)) with
  | none => 0
  | some h =>
    match (if 2 < t.length then pyInt? (String.mk (t.drop 2)) else some 0) with
    | none => 0
    | some m =>
      let hours := if pm_code = some "P" ∧ h ≠ 12 then h + 12 else h
      let _ := is_start
      hours * 60 + m

/-- `Section._parse_times` (`scheduler_core.py` lines 35-73): skip records
without a day code or with an empty start or end string, convert the time
strings to minutes, apply the cross-noon correction (add 12 hours to the end
when it is smaller than the start), and build the `TimeSlot` with the
uppercased campus (default sentinel `UNKNOWN`) and the formatted room. -/
def parse_times : List MeetingTime → List TimeSlot
  | [] => []
  | mt :: rest =>
    match mt.meetingDay with
    | none => parse_times rest
    | some day =>
      let start_str := mt.startTime.getD ""
      let end_str := mt.endTime.getD ""
      let campus0 := mt.campusName.getD (mt.campusLocation.getD "Unknown")
      let campus := if campus0 = "" then "UNKNOWN" else strUpper campus0
      if start_str = "" ∨ end_str = "" then parse_times rest
      else
        let pm_code := mt.pmCode
        let start_minutes := convert_to_minutes start_str pm_code true
        let end_minutes0 := convert_to_minutes end_str pm_code false
        let end_minutes :=
          if end_minutes0 < start_minutes then end_minutes0 + 12 * 60 else end_minutes0
        let rm := mt.roomNumber.getD (mt.room.getD "")
        let building := mt.buildingCode.getD (mt.building.getD "")
        let location := if building ≠ "" ∨ rm ≠ "" then (building ++ " " ++ rm).trim else ""
        ⟨day, start_minutes, end_minutes, start_str ++ "-" ++ end_str, campus, location⟩
          :: parse_times rest

/-- The `Section` object of `scheduler_core.py` lines 24-33, as constructed:
its stored fields, with `time_slots` the parse of the raw meeting data. -/
structure Section where
  section_number : String
  index : String
  instructors : List String
  raw_times : List MeetingTime
  time_slots : List TimeSlot
  open_status : Bool
deriving DecidableEq

/-- The raw dictionary handed to `Section.__init__`; absent keys are `none`
and the `.get` defaults of the source are applied by `Section.build`. -/
structure SectionData where
  number : Option String
  index : Option String
  instructors : List String
  meetingTimes : List MeetingTime
  openStatus : Option Bool
deriving DecidableEq

/-- `Section.__init__` (`scheduler_core.py` lines 26-33). -/
def Section.build (d : SectionData) : Section :=
  { section_number := d.number.getD "UNKNOWN"
    index := d.index.getD "00000"
    instructors := d.instructors
    raw_times := d.meetingTimes
    time_slots := parse_times d.meetingTimes
    open_status := d.openStatus.getD false }

/-- `Section.overlaps` (`scheduler_core.py` lines 102-107): some slot of one
section overlaps some slot of the other. -/
def Section.overlaps (s o : Section) : Bool :=
  s.time_slots.any fun m => o.time_slots.any fun t => m.overlaps t

/-- The `Course` aggregate of `scheduler_core.py` lines 109-119; the Python
set `prereqs` is modelled as a list used only through membership, and the
float `credits` as a rational. -/
structure Course where
  title : String
  code : String
  sections : List Section
  prereqs : List String
  credits : Rat
deriving DecidableEq

/-- `ScheduleConstraints` (`scheduler_core.py` lines 121-124). -/
structure ScheduleConstraints where
  no_days : List String
deriving DecidableEq

/-- `ScheduleConstraints.__init__`: uppercase each raw token
(`self.no_days = [d.upper() for d in (no_days or [])]`). -/
def ScheduleConstraints.init (no_days : Option (List String)) : ScheduleConstraints :=
  ⟨(no_days.getD []).map strUpper⟩

/-- `DeepSeekSchedulerStrategy.STANDARD_TRAVEL_MINUTES`. -/
def STANDARD_TRAVEL_MINUTES : Int := 40

/-- `DeepSeekSchedulerStrategy.SHORT_TRAVEL_MINUTES` (Busch and Livingston). -/
def SHORT_TRAVEL_MINUTES : Int := 30

/-- Required travel gap for a pair of uppercased campus strings
(`scheduler_strategies.py` lines 83-84): the shorter allowance when the
substrings BUSCH and LIV appear on opposite sides, the standard one
otherwise. -/
def travelRequired (c1 c2 : String) : Int :=
  if (containsSub c1 "BUSCH" = true ∧ containsSub c2 "LIV" = true) ∨
     (containsSub c1 "LIV" = true ∧ containsSub c2 "BUSCH" = true)
  then SHORT_TRAVEL_MINUTES else STANDARD_TRAVEL_MINUTES

/-- Per-slot-pair body of `DeepSeekSchedulerStrategy._check_travel`
(`scheduler_strategies.py` lines 69-87): `true` means the pair raises no
travel objection. -/
def checkTravelSlots (slot1 slot2 : TimeSlot) : Bool :=
  if slot1.day ≠ slot2.day then true
  else
    let fs := if slot1.end_time < slot2.start_time then (slot1, slot2) else (slot2, slot1)
    let gap := fs.2.start_time - fs.1.end_time
    let c1 := strUpper slot1.campus
    let c2 := strUpper slot2.campus
    if c1 = c2 ∨ containsSub c1 "ONLINE" = true ∨ containsSub c2 "ONLINE" = true then true
    else decide (travelRequired c1 c2 ≤ gap)

/-- `DeepSeekSchedulerStrategy._check_travel` (`scheduler_strategies.py`
lines 65-89): every slot pair of the two sections is travel-feasible. -/
def check_travel (sec1 sec2 : Section) : Bool :=
  sec1.time_slots.all fun s1 => sec2.time_slots.all fun s2 => checkTravelSlots s1 s2

/-- `DeepSeekSchedulerStrategy._has_issue` (`scheduler_strategies.py`
lines 54-63). -/
def has_issue (new_section : Section) (current : List Section) : Bool :=
  current.any fun ex => Section.overlaps new_section ex || !check_travel new_section ex

/-- `DeepSeekSchedulerStrategy._satisfies_constraints` (`scheduler_strategies.py`
lines 91-94). -/
def satisfies_constraints (sec : Section) (c : ScheduleConstraints) : Bool :=
  sec.time_slots.all fun slot => !(decide (strUpper slot.day ∈ c.no_days))

/-- The `if constraints and not self._satisfies_constraints(...)` guard of the
section loop: with no constraints object the check is skipped. -/
def constraintsReject (cs : Option ScheduleConstraints) (sec : Section) : Bool :=
  match cs with
  | none => false
  | some c => !(satisfies_constraints sec c)

/-- The prerequisite same-request conflict scan at the head of `backtrack`
(`scheduler_strategies.py` lines 28-36): `done` is the prefix
`sorted_courses[0:course_idx]` of already-placed courses. -/
def prereqConflict (course : Course) (done : List Course) : Bool :=
  done.any fun sc => decide (sc.code ∈ course.prereqs) || decide (course.code ∈ sc.prereqs)

/-- Stable insertion into a list kept ascending by section count; elements
with a strictly smaller key stay in front, so an inserted course lands before
every course of equal key that came later in the input. -/
def insertCourse (c : Course) : List Course → List Course
  | [] => [c]
  | d :: ds =>
      if d.sections.length < c.sections.length then d :: insertCourse c ds else c :: d :: ds

/-- Model of `sorted(courses, key=lambda c: len(c.sections))`
(`scheduler_strategies.py` line 15).  Python `sorted` is the stable ascending
sort by the key; this insertion sort is proved below to be ascending, stable
and a permutation, which determines that function extensionally. -/
def sortCourses : List Course → List Course
  | [] => []
  | c :: cs => insertCourse c (sortCourses cs)

/-- The `for section in current_course.sections` loop of `backtrack`
(`scheduler_strategies.py` lines 38-49): each open, non-conflicting,
constraint-satisfying section is appended and the search continues through
`next` (the recursive call at the next course index); the accumulator of
recorded schedules is threaded left to right exactly as the shared
`valid_schedules` list is in the source. -/
def trySections (cs : Option ScheduleConstraints)
    (next : List Section → List (List Section) → List (List Section))
    (current : List Section) :
    List Section → List (List Section) → List (List Section)
  | [], acc => acc
  | sec :: rest, acc =>
    let acc' :=
      if sec.open_status = false then acc
      else if has_issue sec current = true then acc
      else if constraintsReject cs sec = true then acc
      else next (current ++ [sec]) acc
    trySections cs next current rest acc'

/-- The recursive `backtrack` of `generate_schedules`
(`scheduler_strategies.py` lines 17-49).  `done` is the prefix of the sorted
course list already assigned (the source reads it as
`sorted_courses[i]` for `i < course_idx`), `rest` the remaining courses,
`current` the partial schedule and `acc` the schedules recorded so far; the
global cap is re-checked at every entry, as in the source. -/
def backtrack (cap : Nat) (cs : Option ScheduleConstraints) :
    List Course → List Course → List Section → List (List Section) → List (List Section)
  | _done, [], current, acc =>
      if cap ≤ acc.length then acc else acc ++ [current]
  | done, course :: rest, current, acc =>
      if cap ≤ acc.length then acc
      else if prereqConflict course done = true then acc
      else trySections cs (fun cur a => backtrack cap cs (done ++ [course]) rest cur a)
             current course.sections acc

/-- `Config.MAX_SCHEDULES` (`config.py` line 21). -/
def MAX_SCHEDULES : Nat := 50

/-- `generate_schedules` with an explicit result cap (the source reads the
cap from the module-level `Config.MAX_SCHEDULES`; the spec presents it as a
caller-configurable ceiling). -/
def generate_schedules_with (cap : Nat) (courses : List Course)
    (cs : Option ScheduleConstraints) : List (List Section) :=
  backtrack cap cs [] (sortCourses courses) [] []

/-- `DeepSeekSchedulerStrategy.generate_schedules` (`scheduler_strategies.py`
lines 12-52), with the source cap `Config.MAX_SCHEDULES`. -/
def generate_schedules (courses : List Course) (cs : Option ScheduleConstraints) :
    List (List Section) :=
  generate_schedules_with MAX_SCHEDULES courses cs

/-- Uncapped, in-order enumeration of every complete feasible assignment the
backtracking search can reach from the given state: courses in the given
(sorted) order, sections of each course in their given order, with exactly
the rejection tests of the source's section loop.  `generate_schedules` is
proved to be the `take cap` prefix of this list. -/
def enumAll (cs : Option ScheduleConstraints) :
    List Course → List Course → List Section → List (List Section)
  | _done, [], current => [current]
  | done, course :: rest, current =>
    if prereqConflict course done = true then []
    else course.sections.flatMap fun sec =>
      if sec.open_status = false then []
      else if has_issue sec current = true then []
      else if constraintsReject cs sec = true then []
      else enumAll cs (done ++ [course]) rest (current ++ [sec])

/-- Number of feasible complete schedules of a request: the length of the
uncapped enumeration. -/
def feasibleCount (courses : List Course) (cs : Option ScheduleConstraints) : Nat :=
  (enumAll cs [] (sortCourses courses) []).length

/-- Same-request prerequisite conflict between two courses: either lists the
other's code among its prerequisites. -/
def ConflictPair (a b : Course) : Prop :=
  a.code ∈ b.prereqs ∨ b.code ∈ a.prereqs

/-- Relation holding between an earlier and a later section of a recorded
schedule: when the later one was placed, `_has_issue` found no direct overlap
and no travel objection against the earlier one. -/
def secR (earlier later : Section) : Prop :=
  Section.overlaps later earlier = false ∧ check_travel later earlier = true

def tA : TimeSlot := ⟨"M", 600, 660, "10:00AM-11:00AM", "BUSCH", ""⟩
def tB : TimeSlot := ⟨"M", 720, 780, "12:00PM-1:00PM", "BUSCH", ""⟩
def secA : Section := ⟨"01", "00001", [], [], [tA], true⟩
def secB : Section := ⟨"02", "00002", [], [], [tB], true⟩
def cA : Course := ⟨"Calculus I", "01:640:151", [secA], [], 4⟩
def cB : Course := ⟨"Physics I", "01:750:123", [secB], [], 3⟩

def secP : Section := ⟨"01", "00003", [], [], [], true⟩
def secQ : Section := ⟨"01", "00004", [], [], [], true⟩
def cP : Course := ⟨"Data Structures", "01:198:112", [secP], ["01:198:111"], 4⟩
def cQ : Course := ⟨"Intro CS", "01:198:111", [secQ], [], 4⟩

def tX1 : TimeSlot := ⟨"M", 600, 660, "", "BUSCH", ""⟩
def tX2 : TimeSlot := ⟨"M", 670, 730, "", "LIVINGSTON", ""⟩
def secX : Section := ⟨"01", "00005", [], [], [tX1, tX2], true⟩
def cX : Course := ⟨"Split Course", "01:000:100", [secX], [], 3⟩

def tP3 : TimeSlot := ⟨"M", 600, 660, "", "BUSCH", ""⟩
def tQ3 : TimeSlot := ⟨"M", 695, 755, "", "LIVINGSTON", ""⟩
def secP3 : Section := ⟨"01", "00006", [], [], [tP3], true⟩
def secQ3 : Section := ⟨"01", "00007", [], [], [tQ3], true⟩
def cP3 : Course := ⟨"Course P", "01:000:201", [secP3], [], 3⟩
def cQ3 : Course := ⟨"Course Q", "01:000:202", [secQ3], [], 3⟩

def secN1 : Section := ⟨"01", "10001", [], [], [], true⟩
def secN2 : Section := ⟨"02", "10002", [], [], [], true⟩
def secN3 : Section := ⟨"03", "10003", [], [], [], true⟩
def cN : Course := ⟨"Open Course", "01:000:300", [secN1, secN2, secN3], [], 3⟩

def mtEq : MeetingTime := ⟨some "M", some "1000", some "1000", none, none, none, none, none, none, none⟩
def mtNoon : MeetingTime := ⟨some "T", some "1100", some "1215", some "A", none, none, none, none, none, none⟩
def mtBad : MeetingTime := ⟨some "M", some "abc", some "def", none, none, none, none, none, none, none⟩

def tF : TimeSlot := ⟨"F", 600, 660, "", "BUSCH", ""⟩
def secF : Section := ⟨"01", "00008", [], [], [tF], true⟩
def cF : Course := ⟨"Friday Course", "01:000:400", [secF], [], 3⟩
def tM : TimeSlot := ⟨"M", 600, 660, "", "BUSCH", ""⟩
def secM : Section := ⟨"01", "00009", [], [], [tM], true⟩
def cM : Course := ⟨"Monday Course", "01:000:500", [secM], [], 3⟩

def secO : Section := ⟨"01", "20001", [], [], [], true⟩
def secT1 : Section := ⟨"01", "20002", [], [], [], true⟩
def secT2 : Section := ⟨"02", "20003", [], [], [], true⟩
def cOne : Course := ⟨"One Section", "01:000:601", [secO], [], 3⟩
def cTwo : Course := ⟨"Two Sections", "01:000:602", [secT1, secT2], [], 3⟩

/-- Acceptance test of a raw meeting record: it contributes a TimeSlot iff it
has a day code and nonempty start and end strings (numeric or not). -/
def acceptsRecord (mt : MeetingTime) : Bool :=
  mt.meetingDay.isSome && !(mt.startTime.getD "" == "") && !(mt.endTime.getD "" == "")

end RS

namespace RS

/-- Characterization of the section loop: with a continuation `next` that
appends a capped prefix of its own enumeration, the loop appends the capped
prefix of the concatenated per-section enumerations. -/
theorem trySections_spec (cap : Nat) (cs : Option ScheduleConstraints)
    (next : List Section → List (List Section) → List (List Section))
    (nextE : List Section → List (List Section))
    (hnext : ∀ cur a, next cur a = a ++ (nextE cur).take (cap - a.length)) :
    ∀ (secs : List Section) (current : List Section) (acc : List (List Section)),
      trySections cs next current secs acc
        = acc ++ (secs.flatMap fun sec =>
            if sec.open_status = false then []
            else if has_issue sec current = true then []
            else if constraintsReject cs sec = true then []
            else nextE (current ++ [sec])).take (cap - acc.length) := by
  intro secs
  induction secs with
  | nil => intro current acc; simp [trySections]
  | cons sec rest ih =>
    intro current acc
    have hstep : trySections cs next current (sec :: rest) acc
        = trySections cs next current rest
            (acc ++ (List.take (cap - acc.length)
              (if sec.open_status = false then []
               else if has_issue sec current = true then []
               else if constraintsReject cs sec = true then []
               else nextE (current ++ [sec])))) := by
      by_cases h1 : sec.open_status = false
      · simp [trySections, h1]
      · by_cases h2 : has_issue sec current = true
        · simp [trySections, h1, h2]
        · by_cases h3 : constraintsReject cs sec = true
          · simp [trySections, h1, h2, h3]
          · simp [trySections, h1, h2, h3, hnext]
    rw [hstep, ih]
    rw [List.flatMap_cons, List.take_append_eq_append_take, ← List.append_assoc]
    congr 1
    congr 1
    simp [List.length_append, List.length_take]
    omega

/-- The backtracking search records exactly the `cap - acc.length`-bounded
prefix of the uncapped enumeration, appended to the schedules already
recorded. -/
theorem backtrack_spec (cap : Nat) (cs : Option ScheduleConstraints) :
    ∀ (rest done : List Course) (current : List Section) (acc : List (List Section)),
      backtrack cap cs done rest current acc
        = acc ++ (enumAll cs done rest current).take (cap - acc.length) := by
  intro rest
  induction rest with
  | nil =>
    intro done current acc
    by_cases h : cap ≤ acc.length
    · have h0 : cap - acc.length = 0 := by omega
      simp [backtrack, enumAll, h, h0]
    · have h1 : 1 ≤ cap - acc.length := by omega
      rw [show backtrack cap cs done [] current acc = acc ++ [current] from by
        simp [backtrack, h]]
      rw [show enumAll cs done [] current = [current] from rfl]
      rw [List.take_of_length_le (by simpa using h1)]
  | cons course rest' ih =>
    intro done current acc
    by_cases h : cap ≤ acc.length
    · have h0 : cap - acc.length = 0 := by omega
      simp [backtrack, h, h0]
    · by_cases hc : prereqConflict course done = true
      · simp [backtrack, enumAll, h, hc]
      · rw [show backtrack cap cs done (course :: rest') current acc
            = trySections cs (fun cur a => backtrack cap cs (done ++ [course]) rest' cur a)
                current course.sections acc from by simp [backtrack, h, hc]]
        rw [trySections_spec cap cs _ (fun cur => enumAll cs (done ++ [course]) rest' cur)
              (fun cur a => ih (done ++ [course]) cur a)]
        simp [enumAll, hc]

/-- The engine output is the capped prefix of the uncapped enumeration. -/
theorem generate_spec (cap : Nat) (courses : List Course) (cs : Option ScheduleConstraints) :
    generate_schedules_with cap courses cs
      = (enumAll cs [] (sortCourses courses) []).take cap := by
  unfold generate_schedules_with
  rw [backtrack_spec]
  simp

end RS

namespace RS

/-- Schedules produced under a cap are members of the uncapped enumeration. -/
theorem mem_enumAll_of_generate {cap : Nat} {courses : List Course}
    {cs : Option ScheduleConstraints} {s : List Section}
    (hs : s ∈ generate_schedules_with cap courses cs) :
    s ∈ enumAll cs [] (sortCourses courses) [] := by
  rw [generate_spec] at hs
  exact List.take_subset _ _ hs

/-- Unfolding of a passed `_has_issue` test: the candidate neither overlaps
nor breaks travel feasibility against any already-placed section. -/
theorem has_issue_false_spec {sec : Section} {current : List Section}
    (h : ¬ has_issue sec current = true) :
    ∀ ex ∈ current, Section.overlaps sec ex = false ∧ check_travel sec ex = true := by
  intro ex hex
  rw [has_issue] at h
  simp only [List.any_eq_true, not_exists] at h
  have h2 := h ex
  simp only [hex, true_and, Bool.or_eq_true, Bool.not_eq_true', not_or] at h2
  constructor
  · simpa using h2.1
  · simpa using h2.2

/-- Unfolding of a passed prerequisite scan. -/
theorem prereqConflict_false_spec {course : Course} {done : List Course}
    (h : ¬ prereqConflict course done = true) :
    ∀ d ∈ done, ¬ ConflictPair d course := by
  intro d hd hcp
  apply h
  rw [prereqConflict, List.any_eq_true]
  refine ⟨d, hd, ?_⟩
  rcases hcp with h1 | h2
  · simp [h1]
  · simp [h2]

/-- Every schedule in the enumeration is pairwise clean: each section placed
later passed `_has_issue` against each section placed earlier. -/
theorem enumAll_pairwise (cs : Option ScheduleConstraints) :
    ∀ (rest done : List Course) (current : List Section) (s : List Section),
      List.Pairwise secR current → s ∈ enumAll cs done rest current →
      List.Pairwise secR s := by
  intro rest
  induction rest with
  | nil =>
    intro done current s hcur hs
    rw [show enumAll cs done [] current = [current] from rfl, List.mem_singleton] at hs
    subst hs; exact hcur
  | cons course rest' ih =>
    intro done current s hcur hs
    by_cases hc : prereqConflict course done = true
    · simp [enumAll, hc] at hs
    · rw [show enumAll cs done (course :: rest') current
          = course.sections.flatMap (fun sec =>
              if sec.open_status = false then []
              else if has_issue sec current = true then []
              else if constraintsReject cs sec = true then []
              else enumAll cs (done ++ [course]) rest' (current ++ [sec]))
          from by simp [enumAll, hc]] at hs
      obtain ⟨sec, hsec, hmem⟩ := List.mem_flatMap.mp hs
      by_cases h1 : sec.open_status = false
      · simp [h1] at hmem
      · by_cases h2 : has_issue sec current = true
        · simp [h1, h2] at hmem
        · by_cases h3 : constraintsReject cs sec = true
          · simp [h1, h2, h3] at hmem
          · simp only [if_neg h1, if_neg h2, if_neg h3] at hmem
            refine ih (done ++ [course]) (current ++ [sec]) s ?_ hmem
            rw [List.pairwise_append]
            refine ⟨hcur, by simp, ?_⟩
            intro a ha b hb
            rw [List.mem_singleton] at hb
            subst hb
            exact has_issue_false_spec h2 a ha

/-- Every section of an enumerated schedule is open and passes the
constraint check that was in force. -/
theorem enumAll_secOK (cs : Option ScheduleConstraints) :
    ∀ (rest done : List Course) (current : List Section) (s : List Section),
      (∀ sec ∈ current, sec.open_status = true ∧ constraintsReject cs sec = false) →
      s ∈ enumAll cs done rest current →
      ∀ sec ∈ s, sec.open_status = true ∧ constraintsReject cs sec = false := by
  intro rest
  induction rest with
  | nil =>
    intro done current s hcur hs
    rw [show enumAll cs done [] current = [current] from rfl, List.mem_singleton] at hs
    subst hs; exact hcur
  | cons course rest' ih =>
    intro done current s hcur hs
    by_cases hc : prereqConflict course done = true
    · simp [enumAll, hc] at hs
    · rw [show enumAll cs done (course :: rest') current
          = course.sections.flatMap (fun sec =>
              if sec.open_status = false then []
              else if has_issue sec current = true then []
              else if constraintsReject cs sec = true then []
              else enumAll cs (done ++ [course]) rest' (current ++ [sec]))
          from by simp [enumAll, hc]] at hs
      obtain ⟨sec, hsec, hmem⟩ := List.mem_flatMap.mp hs
      by_cases h1 : sec.open_status = false
      · simp [h1] at hmem
      · by_cases h2 : has_issue sec current = true
        · simp [h1, h2] at hmem
        · by_cases h3 : constraintsReject cs sec = true
          · simp [h1, h2, h3] at hmem
          · simp only [if_neg h1, if_neg h2, if_neg h3] at hmem
            refine ih (done ++ [course]) (current ++ [sec]) s ?_ hmem
            intro x hx
            rcases List.mem_append.mp hx with hxl | hxr
            · exact hcur x hxl
            · rw [List.mem_singleton] at hxr
              subst hxr
              refine ⟨by simpa using h1, by simpa using h3⟩

end RS

namespace RS

/-- Shape of an enumerated schedule: it extends the partial schedule by one
section per remaining course, the section at each position drawn from the
section list of the course at the same position. -/
theorem enumAll_shape (cs : Option ScheduleConstraints) :
    ∀ (rest done : List Course) (current : List Section) (s : List Section),
      s ∈ enumAll cs done rest current →
      ∃ ext : List Section, s = current ++ ext ∧ ext.length = rest.length ∧
        ∀ i (h1 : i < ext.length) (h2 : i < rest.length),
          ext.get ⟨i, h1⟩ ∈ (rest.get ⟨i, h2⟩).sections := by
  intro rest
  induction rest with
  | nil =>
    intro done current s hs
    rw [show enumAll cs done [] current = [current] from rfl, List.mem_singleton] at hs
    exact ⟨[], by simpa using hs, rfl, by intro i h1 h2; exact absurd h1 (by simp)⟩
  | cons course rest' ih =>
    intro done current s hs
    by_cases hc : prereqConflict course done = true
    · simp [enumAll, hc] at hs
    · rw [show enumAll cs done (course :: rest') current
          = course.sections.flatMap (fun sec =>
              if sec.open_status = false then []
              else if has_issue sec current = true then []
              else if constraintsReject cs sec = true then []
              else enumAll cs (done ++ [course]) rest' (current ++ [sec]))
          from by simp [enumAll, hc]] at hs
      obtain ⟨sec, hsec, hmem⟩ := List.mem_flatMap.mp hs
      by_cases h1 : sec.open_status = false
      · simp [h1] at hmem
      · by_cases h2 : has_issue sec current = true
        · simp [h1, h2] at hmem
        · by_cases h3 : constraintsReject cs sec = true
          · simp [h1, h2, h3] at hmem
          · simp only [if_neg h1, if_neg h2, if_neg h3] at hmem
            obtain ⟨ext', hse, hlen, hpos⟩ := ih (done ++ [course]) (current ++ [sec]) s hmem
            refine ⟨sec :: ext', ?_, by simpa using hlen, ?_⟩
            · rw [hse, List.append_assoc, List.singleton_append]
            · intro i hh1 hh2
              match i with
              | 0 => simpa using hsec
              | Nat.succ n =>
                have hn1 : n < ext'.length := by simpa using hh1
                have hn2 : n < rest'.length := by simpa using hh2
                simpa using hpos n hn1 hn2

/-- If the enumeration from a state is nonempty then no prerequisite
conflict exists between a placed course and a remaining one, nor between any
two remaining courses. -/
theorem enumAll_conflict (cs : Option ScheduleConstraints) :
    ∀ (rest done : List Course) (current : List Section),
      enumAll cs done rest current ≠ [] →
      (∀ d ∈ done, ∀ c ∈ rest, ¬ ConflictPair d c) ∧
      List.Pairwise (fun a b => ¬ ConflictPair a b) rest := by
  intro rest
  induction rest with
  | nil => intro done current _; exact ⟨by simp, by simp⟩
  | cons course rest' ih =>
    intro done current hne
    by_cases hc : prereqConflict course done = true
    · exact absurd (by simp [enumAll, hc]) hne
    · rw [show enumAll cs done (course :: rest') current
          = course.sections.flatMap (fun sec =>
              if sec.open_status = false then []
              else if has_issue sec current = true then []
              else if constraintsReject cs sec = true then []
              else enumAll cs (done ++ [course]) rest' (current ++ [sec]))
          from by simp [enumAll, hc]] at hne
      have hex : ∃ sec ∈ course.sections,
          (if sec.open_status = false then []
           else if has_issue sec current = true then []
           else if constraintsReject cs sec = true then []
           else enumAll cs (done ++ [course]) rest' (current ++ [sec])) ≠ [] := by
        by_contra hall
        push_neg at hall
        exact hne (List.flatMap_eq_nil_iff.mpr hall)
      obtain ⟨sec, hsec, hne2⟩ := hex
      by_cases h1 : sec.open_status = false
      · simp [h1] at hne2
      · by_cases h2 : has_issue sec current = true
        · simp [h1, h2] at hne2
        · by_cases h3 : constraintsReject cs sec = true
          · simp [h1, h2, h3] at hne2
          · simp only [if_neg h1, if_neg h2, if_neg h3] at hne2
            have hih := ih (done ++ [course]) (current ++ [sec]) hne2
            have hnoc := prereqConflict_false_spec hc
            constructor
            · intro d hd c hcm
              rcases List.mem_cons.mp hcm with rfl | hcr
              · exact hnoc d hd
              · exact hih.1 d (List.mem_append_left _ hd) c hcr
            · rw [List.pairwise_cons]
              refine ⟨?_, hih.2⟩
              intro b hb
              exact hih.1 course (List.mem_append_right _ (by simp)) b hb

end RS

namespace RS

/-- Inserting a course permutes consing it in front. -/
theorem insertCourse_perm (c : Course) :
    ∀ l : List Course, (insertCourse c l).Perm (c :: l) := by
  intro l
  induction l with
  | nil => simp [insertCourse]
  | cons d ds ih =>
    by_cases h : d.sections.length < c.sections.length
    · simp only [insertCourse, if_pos h]
      exact List.Perm.trans (List.Perm.cons d ih) (List.Perm.swap c d ds)
    · simp [insertCourse, h]

/-- The course sort is a permutation of its input. -/
theorem sortCourses_perm : ∀ l : List Course, (sortCourses l).Perm l := by
  intro l
  induction l with
  | nil => simp [sortCourses]
  | cons c cs ih =>
    exact List.Perm.trans (insertCourse_perm c (sortCourses cs)) (List.Perm.cons c ih)

/-- Inserting preserves the ascending-by-section-count ordering. -/
theorem insertCourse_sorted (c : Course) :
    ∀ l : List Course,
      List.Pairwise (fun a b : Course => a.sections.length ≤ b.sections.length) l →
      List.Pairwise (fun a b : Course => a.sections.length ≤ b.sections.length)
        (insertCourse c l) := by
  intro l
  induction l with
  | nil => intro _; simp [insertCourse]
  | cons d ds ih =>
    intro hp
    rw [List.pairwise_cons] at hp
    obtain ⟨hd, hds⟩ := hp
    by_cases h : d.sections.length < c.sections.length
    · simp only [insertCourse, if_pos h]
      rw [List.pairwise_cons]
      constructor
      · intro x hx
        have hx2 : x ∈ c :: ds := (insertCourse_perm c ds).mem_iff.mp hx
        rcases List.mem_cons.mp hx2 with rfl | hxds
        · exact le_of_lt h
        · exact hd x hxds
      · exact ih hds
    · simp only [insertCourse, if_neg h]
      rw [not_lt] at h
      rw [List.pairwise_cons]
      constructor
      · intro x hx
        rcases List.mem_cons.mp hx with rfl | hxds
        · exact h
        · exact le_trans h (hd x hxds)
      · exact List.pairwise_cons.mpr ⟨hd, hds⟩

/-- The course sort is ascending by section count. -/
theorem sortCourses_sorted :
    ∀ l : List Course,
      List.Pairwise (fun a b : Course => a.sections.length ≤ b.sections.length)
        (sortCourses l) := by
  intro l
  induction l with
  | nil => simp [sortCourses]
  | cons c cs ih => exact insertCourse_sorted c (sortCourses cs) ih

/-- Insertion places a course in front of every already-present course of
equal section count: the filter at any fixed count k gains the new course at
the front when it has count k and is unchanged otherwise. -/
theorem insertCourse_filter (c : Course) (k : Nat) :
    ∀ l : List Course,
      (insertCourse c l).filter (fun d => d.sections.length == k)
        = if c.sections.length == k
          then c :: l.filter (fun d => d.sections.length == k)
          else l.filter (fun d => d.sections.length == k) := by
  intro l
  induction l with
  | nil =>
    by_cases h : c.sections.length = k
    · simp [insertCourse, h]
    · simp [insertCourse, List.filter_cons, Nat.ne_of_lt, h]
  | cons d ds ih =>
    by_cases h : d.sections.length < c.sections.length
    · simp only [insertCourse, if_pos h]
      by_cases hck : c.sections.length = k
      · have hdk : (d.sections.length == k) = false := by
          subst hck
          simpa using Nat.ne_of_lt h
        rw [List.filter_cons_of_neg (by simp [hdk]), ih]
        rw [List.filter_cons_of_neg (by simp [hdk])]
      · have hck2 : (c.sections.length == k) = false := by simpa using hck
        simp [List.filter_cons, ih, hck2]
    · simp only [insertCourse, if_neg h]
      by_cases hck : c.sections.length = k
      · rw [List.filter_cons_of_pos (by simp [hck])]
        simp [hck]
      · rw [List.filter_cons_of_neg (by simp [hck])]
        simp [hck]

/-- Stability of the course sort: at every fixed section count k, the sorted
list restricted to courses of count k is the input list restricted to count
k, in the same order. -/
theorem sortCourses_filter (k : Nat) :
    ∀ l : List Course,
      (sortCourses l).filter (fun d => d.sections.length == k)
        = l.filter (fun d => d.sections.length == k) := by
  intro l
  induction l with
  | nil => simp [sortCourses]
  | cons c cs ih =>
    rw [show sortCourses (c :: cs) = insertCourse c (sortCourses cs) from rfl]
    rw [insertCourse_filter, ih]
    by_cases hck : c.sections.length = k
    · simp [List.filter_cons, hck]
    · simp [List.filter_cons, hck]

end RS

namespace RS

/-- Unfolding of `TimeSlot.overlaps` into the specification shape. -/
theorem timeslot_overlaps_iff (a b : TimeSlot) :
    TimeSlot.overlaps a b = true ↔
      (a.day = b.day ∧ max a.start_time b.start_time < min a.end_time b.end_time) := by
  rw [TimeSlot.overlaps]
  by_cases h : a.day = b.day
  · simp [h]
  · simp [h]

/-- Unfolding of a failed `Section.overlaps`: no slot pair overlaps. -/
theorem section_overlaps_false_spec {s o : Section} (h : Section.overlaps s o = false) :
    ∀ m ∈ s.time_slots, ∀ t ∈ o.time_slots, TimeSlot.overlaps m t = false := by
  intro m hm t ht
  rw [Section.overlaps] at h
  rw [List.any_eq_false] at h
  have h2 := h m hm
  simp only [Bool.not_eq_true, List.any_eq_false] at h2
  simpa using h2 t ht

/-- Unfolding of a passed `_check_travel`: every slot pair is feasible. -/
theorem check_travel_spec {s o : Section} (h : check_travel s o = true) :
    ∀ m ∈ s.time_slots, ∀ t ∈ o.time_slots, checkTravelSlots m t = true := by
  intro m hm t ht
  rw [check_travel, List.all_eq_true] at h
  have h2 := h m hm
  rw [List.all_eq_true] at h2
  exact h2 t ht

/-- The required travel gap is symmetric in the two campuses. -/
theorem travelRequired_comm (c1 c2 : String) :
    travelRequired c1 c2 = travelRequired c2 c1 := by
  have hiff : ((containsSub c1 "BUSCH" = true ∧ containsSub c2 "LIV" = true) ∨
      (containsSub c1 "LIV" = true ∧ containsSub c2 "BUSCH" = true)) ↔
      ((containsSub c2 "BUSCH" = true ∧ containsSub c1 "LIV" = true) ∨
      (containsSub c2 "LIV" = true ∧ containsSub c1 "BUSCH" = true)) := by tauto
  rw [travelRequired, travelRequired, if_congr hiff rfl rfl]

/-- Soundness of a passed per-pair travel check on a same-day, cross-campus,
non-online slot pair: the code's computed gap meets the required minimum, so
one of the two possible orientations of the pair shows the required gap. -/
theorem checkTravelSlots_sound {s1 s2 : TimeSlot}
    (h : checkTravelSlots s1 s2 = true)
    (hday : s1.day = s2.day)
    (hc : strUpper s1.campus ≠ strUpper s2.campus)
    (ho1 : containsSub (strUpper s1.campus) "ONLINE" = false)
    (ho2 : containsSub (strUpper s2.campus) "ONLINE" = false) :
    travelRequired (strUpper s1.campus) (strUpper s2.campus) ≤ s2.start_time - s1.end_time ∨
    travelRequired (strUpper s1.campus) (strUpper s2.campus) ≤ s1.start_time - s2.end_time := by
  rw [checkTravelSlots] at h
  rw [if_neg (by simpa using hday)] at h
  simp only [ho1, ho2] at h
  rw [if_neg (by simp [hc, ho1, ho2])] at h
  by_cases hord : s1.end_time < s2.start_time
  · left
    simpa [hord] using h
  · right
    simpa [hord] using h

/-- Every schedule the engine returns is pairwise clean under `secR`. -/
theorem generate_pairwise {cap : Nat} {courses : List Course}
    {cs : Option ScheduleConstraints} {s : List Section}
    (hs : s ∈ generate_schedules_with cap courses cs) : List.Pairwise secR s :=
  enumAll_pairwise cs (sortCourses courses) [] [] s (by simp) (mem_enumAll_of_generate hs)

/-- Unfolding of a passed constraint check: no slot of the section meets on
an excluded (uppercased) day. -/
theorem constraintsReject_false_spec {c : ScheduleConstraints} {sec : Section}
    (h : constraintsReject (some c) sec = false) :
    ∀ slot ∈ sec.time_slots, strUpper slot.day ∉ c.no_days := by
  intro slot hslot
  rw [constraintsReject, Bool.not_eq_false', satisfies_constraints, List.all_eq_true] at h
  simpa using h slot hslot

end RS


namespace RS

/-- C5: `TimeSlot.overlaps` returns true iff the two slots share a day and
their minute intervals intersect under half-open semantics
(`max(start1, start2) < min(end1, end2)`); in particular slots on different
days never overlap, and the embedded operation is a pure value comparison. -/
theorem C5_overlaps_contract (a b : TimeSlot) :
    TimeSlot.overlaps a b = true ↔
      (a.day = b.day ∧ max a.start_time b.start_time < min a.end_time b.end_time) :=
  timeslot_overlaps_iff a b

/-- C9: the engine is deterministic with a fixed enumeration order: its
output is a pure function of the inputs, equal to the first
`MAX_SCHEDULES` entries of the canonical enumeration that follows the
ascending-section-count course order and, within each course, the given
section order. -/
theorem C9_deterministic_enumeration (courses : List Course)
    (cs : Option ScheduleConstraints) :
    generate_schedules courses cs
      = (enumAll cs [] (sortCourses courses) []).take MAX_SCHEDULES :=
  generate_spec MAX_SCHEDULES courses cs

/-- C4: the source cap is the constant 50 from `Config.MAX_SCHEDULES`;
`generate_schedules` is the engine at that cap; for every cap the result
length is at most the cap, with equality whenever the number of feasible
complete schedules reaches the cap. -/
theorem C4_result_cap (cap : Nat) (courses : List Course)
    (cs : Option ScheduleConstraints) :
    MAX_SCHEDULES = 50 ∧
    generate_schedules courses cs = generate_schedules_with MAX_SCHEDULES courses cs ∧
    (generate_schedules_with cap courses cs).length ≤ cap ∧
    (cap ≤ feasibleCount courses cs →
      (generate_schedules_with cap courses cs).length = cap) := by
  refine ⟨rfl, rfl, ?_, ?_⟩
  · rw [generate_spec, List.length_take]
    omega
  · intro hge
    rw [feasibleCount] at hge
    rw [generate_spec, List.length_take]
    omega

/-- Witness for C4 at a concrete input: one course with three open sections
and cap 2 has feasible count 3 ≥ 2, so exactly 2 schedules are returned. -/
theorem C4_result_cap_witness : (generate_schedules_with 2 [cN] none).length = 2 :=
  (C4_result_cap 2 [cN] none).2.2.2 (by decide)

end RS

namespace RS

/-- C1: in every returned schedule, for every pair of distinct sections, no
time slot of one overlaps a time slot of the other under the half-open
same-day definition. -/
theorem C1_overlap_exclusion (courses : List Course) (cs : Option ScheduleConstraints)
    (s : List Section) (hs : s ∈ generate_schedules courses cs)
    (i j : Nat) (hi : i < s.length) (hj : j < s.length) (hij : i ≠ j)
    (t1 : TimeSlot) (ht1 : t1 ∈ (s.get ⟨i, hi⟩).time_slots)
    (t2 : TimeSlot) (ht2 : t2 ∈ (s.get ⟨j, hj⟩).time_slots) :
    ¬ (t1.day = t2.day ∧ max t1.start_time t2.start_time < min t1.end_time t2.end_time) := by
  have hp : List.Pairwise secR s := generate_pairwise hs
  rw [List.pairwise_iff_get] at hp
  intro hcon
  rcases Nat.lt_or_ge i j with hlt | hge
  · have hR := hp ⟨i, hi⟩ ⟨j, hj⟩ (by simpa using hlt)
    have hov := section_overlaps_false_spec hR.1 t2 ht2 t1 ht1
    have hov2 : TimeSlot.overlaps t2 t1 = true :=
      (timeslot_overlaps_iff t2 t1).mpr
        ⟨hcon.1.symm, by rw [max_comm, min_comm]; exact hcon.2⟩
    rw [hov2] at hov
    exact Bool.noConfusion hov
  · have hlt2 : j < i := Nat.lt_of_le_of_ne hge (Ne.symm hij)
    have hR := hp ⟨j, hj⟩ ⟨i, hi⟩ (by simpa using hlt2)
    have hov := section_overlaps_false_spec hR.1 t1 ht1 t2 ht2
    have hov2 : TimeSlot.overlaps t1 t2 = true := (timeslot_overlaps_iff t1 t2).mpr hcon
    rw [hov2] at hov
    exact Bool.noConfusion hov

/-- Witness for C1 at a concrete input: two accepted same-day sections whose
slots do not intersect. -/
theorem C1_overlap_exclusion_witness :
    ¬ (tA.day = tB.day ∧ max tA.start_time tB.start_time < min tA.end_time tB.end_time) :=
  C1_overlap_exclusion [cA, cB] none [secA, secB] (by decide) 0 1 (by decide) (by decide)
    (by decide) tA (by decide) tB (by decide)

/-- C2: when one requested course lists another requested course's code among
its prerequisites, no schedule is produced at all: the engine returns the
empty list regardless of section compatibility. -/
theorem C2_prereq_exclusion (courses : List Course) (cs : Option ScheduleConstraints)
    (i j : Nat) (hi : i < courses.length) (hj : j < courses.length) (hij : i ≠ j)
    (hconf : (courses.get ⟨i, hi⟩).code ∈ (courses.get ⟨j, hj⟩).prereqs ∨
             (courses.get ⟨j, hj⟩).code ∈ (courses.get ⟨i, hi⟩).prereqs) :
    generate_schedules courses cs = [] := by
  have hE : enumAll cs [] (sortCourses courses) [] = [] := by
    by_contra hne
    have hpw := (enumAll_conflict cs (sortCourses courses) [] [] hne).2
    have hsym : ∀ {x y : Course},
        (fun a b => ¬ ConflictPair a b) x y → (fun a b => ¬ ConflictPair a b) y x := by
      intro x y hxy hyx
      exact hxy (Or.symm hyx)
    have hpw2 : List.Pairwise (fun a b => ¬ ConflictPair a b) courses :=
      ((sortCourses_perm courses).pairwise_iff hsym).mp hpw
    rw [List.pairwise_iff_get] at hpw2
    rcases Nat.lt_or_ge i j with hlt | hge
    · exact hpw2 ⟨i, hi⟩ ⟨j, hj⟩ (by simpa using hlt) hconf
    · have hlt2 : j < i := Nat.lt_of_le_of_ne hge (Ne.symm hij)
      exact hpw2 ⟨j, hj⟩ ⟨i, hi⟩ (by simpa using hlt2) (Or.symm hconf)
  rw [generate_schedules, generate_spec, hE]
  rfl

/-- Witness for C2 at a concrete input: two courses where the second's code
is a prerequisite of the first; no schedules result. -/
theorem C2_prereq_exclusion_witness : generate_schedules [cP, cQ] none = [] :=
  C2_prereq_exclusion [cP, cQ] none 0 1 (by decide) (by decide) (by decide)
    (Or.inr (by decide))

/-- C3 (amended): in every returned schedule, for any two same-day slots of
two DISTINCT sections with different non-online uppercased campuses, the gap
from the earlier slot's end to the later slot's start is at least the
required travel allowance (30 minutes for a Busch/Livingston pair, else 40);
the pair inside a single section is not checked by the engine, see the
counterexample. -/
theorem C3_travel_buffer (courses : List Course) (cs : Option ScheduleConstraints)
    (s : List Section) (hs : s ∈ generate_schedules courses cs)
    (i j : Nat) (hi : i < s.length) (hj : j < s.length) (hij : i ≠ j)
    (t1 : TimeSlot) (ht1 : t1 ∈ (s.get ⟨i, hi⟩).time_slots)
    (t2 : TimeSlot) (ht2 : t2 ∈ (s.get ⟨j, hj⟩).time_slots)
    (hday : t1.day = t2.day)
    (hcamp : strUpper t1.campus ≠ strUpper t2.campus)
    (ho1 : containsSub (strUpper t1.campus) "ONLINE" = false)
    (ho2 : containsSub (strUpper t2.campus) "ONLINE" = false) :
    travelRequired (strUpper t1.campus) (strUpper t2.campus)
        ≤ t2.start_time - t1.end_time ∨
    travelRequired (strUpper t1.campus) (strUpper t2.campus)
        ≤ t1.start_time - t2.end_time := by
  have hp : List.Pairwise secR s := generate_pairwise hs
  rw [List.pairwise_iff_get] at hp
  rcases Nat.lt_or_ge i j with hlt | hge
  · have hR := hp ⟨i, hi⟩ ⟨j, hj⟩ (by simpa using hlt)
    have htr := check_travel_spec hR.2 t2 ht2 t1 ht1
    have hsound := checkTravelSlots_sound htr hday.symm (Ne.symm hcamp) ho2 ho1
    rw [travelRequired_comm] at hsound
    exact hsound.symm
  · have hlt2 : j < i := Nat.lt_of_le_of_ne hge (Ne.symm hij)
    have hR := hp ⟨j, hj⟩ ⟨i, hi⟩ (by simpa using hlt2)
    have htr := check_travel_spec hR.2 t1 ht1 t2 ht2
    exact checkTravelSlots_sound htr hday hcamp ho1 ho2

/-- Witness for the amended C3 at a concrete input: accepted Busch then
Livingston sections 35 minutes apart. -/
theorem C3_travel_buffer_witness :
    travelRequired (strUpper tP3.campus) (strUpper tQ3.campus)
        ≤ tQ3.start_time - tP3.end_time ∨
    travelRequired (strUpper tP3.campus) (strUpper tQ3.campus)
        ≤ tP3.start_time - tQ3.end_time :=
  C3_travel_buffer [cP3, cQ3] none [secP3, secQ3] (by decide) 0 1 (by decide) (by decide)
    (by decide) tP3 (by decide) tQ3 (by decide) (by decide) (by decide) (by decide)
    (by decide)

/-- Counterexample to C3 as stated: quantified over ALL slot pairs of a
schedule, including the two slots of one section, the property fails — a
single section meeting on Busch and then Livingston with a 10-minute gap is
accepted, because `_check_travel` only ever compares slots of two different
sections. -/
theorem C3_travel_buffer_counterexample :
    ¬ (∀ s ∈ generate_schedules [cX] none, ∀ sec1 ∈ s, ∀ sec2 ∈ s,
        ∀ t1 ∈ Section.time_slots sec1, ∀ t2 ∈ Section.time_slots sec2,
        t1.day = t2.day → strUpper t1.campus ≠ strUpper t2.campus →
        containsSub (strUpper t1.campus) "ONLINE" = false →
        containsSub (strUpper t2.campus) "ONLINE" = false →
        (travelRequired (strUpper t1.campus) (strUpper t2.campus)
            ≤ t2.start_time - t1.end_time ∨
         travelRequired (strUpper t1.campus) (strUpper t2.campus)
            ≤ t1.start_time - t2.end_time)) := by
  decide

end RS


namespace RS
/-- C6 (amended): every accepted record yields exactly one TimeSlot whose
start is at most its end, PROVIDED the pre-correction start minutes exceed
the pre-correction end minutes by at most 12 hours (true of all genuine
clock-time encodings); the strict inequality of the claim fails, see the
counterexample with equal start and end strings. -/
theorem C6_parse_invariant (mt : MeetingTime) (d s e : String)
    (hd : mt.meetingDay = some d) (hs : mt.startTime = some s) (he : mt.endTime = some e)
    (hs2 : s ≠ "") (he2 : e ≠ "")
    (hrange : convert_to_minutes s mt.pmCode true
              ≤ convert_to_minutes e mt.pmCode false + 720) :
    ∃ slot : TimeSlot, parse_times [mt] = [slot] ∧ slot.start_time ≤ slot.end_time := by
  refine ⟨⟨d, convert_to_minutes s mt.pmCode true,
      (if convert_to_minutes e mt.pmCode false < convert_to_minutes s mt.pmCode true
       then convert_to_minutes e mt.pmCode false + 12 * 60
       else convert_to_minutes e mt.pmCode false),
      s ++ "-" ++ e,
      (if (mt.campusName.getD (mt.campusLocation.getD "Unknown")) = "" then "UNKNOWN"
       else strUpper (mt.campusName.getD (mt.campusLocation.getD "Unknown"))),
      (if mt.buildingCode.getD (mt.building.getD "") ≠ "" ∨
          mt.roomNumber.getD (mt.room.getD "") ≠ ""
       then ((mt.buildingCode.getD (mt.building.getD "")) ++ " "
             ++ (mt.roomNumber.getD (mt.room.getD ""))).trim
       else "")⟩, ?_, ?_⟩
  · simp only [parse_times, hd, hs, he, Option.getD_some]
    rw [if_neg (by simp [hs2, he2])]
  · by_cases hlt : convert_to_minutes e mt.pmCode false
        < convert_to_minutes s mt.pmCode true
    · simp only [if_pos hlt]
      omega
    · simp only [if_neg hlt]
      omega

/-- Witness for the amended C6 at a concrete record: a class from 11:00 to
12:15 with an AM indicator parses to the slot 660-735 with start at most
end. -/
theorem C6_parse_invariant_witness :
    ∃ slot : TimeSlot, parse_times [mtNoon] = [slot] ∧ slot.start_time ≤ slot.end_time :=
  C6_parse_invariant mtNoon "T" "1100" "1215" rfl rfl rfl (by decide) (by decide)
    (by decide)

/-- Counterexample to C6 as stated: the record with equal start and end
strings 1000 is accepted and yields a slot with start equal to end, so the
claimed strict inequality fails. -/
theorem C6_parse_invariant_counterexample :
    (parse_times [mtEq]).length = 1 ∧
    ∀ slot ∈ parse_times [mtEq], ¬ (slot.start_time < slot.end_time) := by
  decide

/-- C7 (amended): parsing never fails, and a record is skipped (contributes
no TimeSlot) exactly when it lacks a day code or has an empty start or end
string; a record with nonempty NON-NUMERIC time fields is NOT skipped — its
fields convert to 0 and a TimeSlot is appended, see the counterexample. -/
theorem C7_skip_only_missing (mts : List MeetingTime) :
    (parse_times mts).length = (mts.filter acceptsRecord).length := by
  induction mts with
  | nil => rfl
  | cons mt rest ih =>
    cases hmd : mt.meetingDay with
    | none =>
      simp only [parse_times, hmd]
      rw [List.filter_cons_of_neg (by simp [acceptsRecord, hmd])]
      exact ih
    | some day =>
      by_cases hse : mt.startTime.getD "" = "" ∨ mt.endTime.getD "" = ""
      · simp only [parse_times, hmd]
        rw [if_pos hse]
        rw [List.filter_cons_of_neg
          (by rcases hse with h | h <;> simp [acceptsRecord, hmd, h])]
        exact ih
      · push_neg at hse
        simp only [parse_times, hmd]
        rw [if_neg (by tauto)]
        rw [List.filter_cons_of_pos
          (by simp [acceptsRecord, hmd, hse.1, hse.2])]
        simp only [List.length_cons, ih]

/-- Counterexample to C7 as stated: the record with day M and non-numeric
times abc, def is NOT skipped; one TimeSlot with start and end 0 is
appended. -/
theorem C7_skip_only_missing_counterexample :
    parse_times [mtBad] = [⟨"M", 0, 0, "abc-def", "UNKNOWN", ""⟩] ∧
    parse_times [mtBad] ≠ [] := by
  decide

/-- C8 (amended): `ScheduleConstraints` construction only uppercases the raw
tokens (no mapping of day names to canonical codes), and the engine's
day-exclusion check guarantees that no slot of any returned section meets on
a day whose uppercased code is among `no_days`; a full day name such as
friday therefore excludes nothing, see the counterexample. -/
theorem C8_day_normalization (raw : List String) (courses : List Course)
    (c : ScheduleConstraints) (s : List Section) (sec : Section) (slot : TimeSlot)
    (hs : s ∈ generate_schedules courses (some c))
    (hsec : sec ∈ s) (hslot : slot ∈ sec.time_slots) :
    (ScheduleConstraints.init (some raw)).no_days = raw.map strUpper ∧
    strUpper slot.day ∉ c.no_days := by
  refine ⟨rfl, ?_⟩
  have hok := enumAll_secOK (some c) (sortCourses courses) [] [] s (by simp)
      (mem_enumAll_of_generate hs) sec hsec
  exact constraintsReject_false_spec hok.2 slot hslot

/-- Witness for the amended C8 at a concrete input: with excluded token f a
Monday section is returned and its slot day M is indeed not excluded. -/
theorem C8_day_normalization_witness :
    (ScheduleConstraints.init (some ["monday"])).no_days = ["monday"].map strUpper ∧
    strUpper tM.day ∉ (ScheduleConstraints.init (some ["f"])).no_days :=
  C8_day_normalization ["monday"] [cM] (ScheduleConstraints.init (some ["f"]))
    [secM] secM tM (by decide) (by decide) (by decide)

/-- Counterexample to C8 as stated: the token friday uppercases to FRIDAY,
which never equals any slot's uppercased day code F, so a Friday-only
section is still returned. -/
theorem C8_day_normalization_counterexample :
    (ScheduleConstraints.init (some ["friday"])).no_days = ["FRIDAY"] ∧
    generate_schedules [cF] (some (ScheduleConstraints.init (some ["friday"])))
      = [[secF]] ∧
    tF ∈ secF.time_slots ∧ tF.day = "F" := by
  decide

/-- C10: the course ordering is the stable ascending sort by section count
(the filter at every fixed count is preserved in input order, the result is
ascending and a permutation), and consequently every returned schedule has
exactly one section per input course, the section at position i drawn from
the i-th course of the sorted order. -/
theorem C10_stable_sort_positions (courses : List Course) :
    (∀ k : Nat, (sortCourses courses).filter (fun c => c.sections.length == k)
        = courses.filter (fun c => c.sections.length == k)) ∧
    List.Pairwise (fun a b : Course => a.sections.length ≤ b.sections.length)
      (sortCourses courses) ∧
    (sortCourses courses).Perm courses ∧
    ∀ (cs : Option ScheduleConstraints) (s : List Section),
      s ∈ generate_schedules courses cs →
      s.length = courses.length ∧
      ∀ i (h1 : i < s.length) (h2 : i < (sortCourses courses).length),
        s.get ⟨i, h1⟩ ∈ ((sortCourses courses).get ⟨i, h2⟩).sections := by
  refine ⟨fun k => sortCourses_filter k courses, sortCourses_sorted courses,
    sortCourses_perm courses, ?_⟩
  intro cs s hs
  obtain ⟨ext, hse, hlen, hpos⟩ :=
    enumAll_shape cs (sortCourses courses) [] [] s (mem_enumAll_of_generate hs)
  rw [List.nil_append] at hse
  subst hse
  exact ⟨by rw [hlen]; exact (sortCourses_perm courses).length_eq, hpos⟩

/-- Witness for C10 at a concrete input: with a two-section course listed
first and a one-section course second, the first returned schedule's first
section comes from the one-section course, which the stable sort moved to
the front. -/
theorem C10_stable_sort_positions_witness :
    ([secO, secT1] : List Section).get ⟨0, by decide⟩
      ∈ ((sortCourses [cTwo, cOne]).get ⟨0, by decide⟩).sections := by
  have h := (C10_stable_sort_positions [cTwo, cOne]).2.2.2 none [secO, secT1] (by decide)
  exact h.2 0 (by decide) (by decide)

end RS
